import Mathlib

/-!
Verification development for the `hips` package (HiPS tile fetching and
drawing).  The Python source under `hips/` is shallowly embedded below:

* numpy 2-d arrays become `Arr α` (explicit height/width plus a value
  function; out-of-range values are irrelevant junk, equality is compared
  on the in-range rectangle by `arrEq`),
* machine floats in the resolution / distortion computations become real
  numbers (`ℝ`),
* code that can raise becomes `Option` / `Except`,
* external collaborators (the network, the WCS projection, the image
  codec) become explicit function parameters; the image codec is taken to
  be the identity on decoded pixel arrays (lossless round trip), which is
  exactly the regime the claims about pixel data address.
-/

/-- Model of a numpy 2-dimensional array: a height, a width and a value
function.  Values outside the `h × w` rectangle are junk. -/
structure Arr (α : Type) where
  h : ℕ
  w : ℕ
  v : ℕ → ℕ → α

/-- Equality of two array models: same shape and same values on the
in-range rectangle. -/
def arrEq {α : Type} (A B : Arr α) : Prop :=
  A.h = B.h ∧ A.w = B.w ∧ ∀ r, r < A.h → ∀ c, c < A.w → A.v r c = B.v r c

instance {α : Type} [DecidableEq α] (A B : Arr α) : Decidable (arrEq A B) := by
  unfold arrEq; infer_instance

/-- Embedding of `data[::-1, ...]` (vertical flip). -/
def flipud {α : Type} (A : Arr α) : Arr α :=
  ⟨A.h, A.w, fun r c => A.v (A.h - 1 - r) c⟩

/-- Embedding of the numpy slice `data[r0:r1, c0:c1]` (with numpy's
clipping of out-of-range stop values). -/
def sliceStop {α : Type} (A : Arr α) (r0 r1 c0 c1 : ℕ) : Arr α :=
  ⟨min r1 A.h - min r0 A.h, min c1 A.w - min c0 A.w,
   fun r c => A.v (r0 + r) (c0 + c)⟩

/-- Embedding of the slice assignment `A[r0:r0+B.h, c0:c0+B.w] = B`
(used only with regions that fit inside `A`, as in the source). -/
def updateRegion {α : Type} (A : Arr α) (r0 c0 : ℕ) (B : Arr α) : Arr α :=
  ⟨A.h, A.w,
   fun r c =>
     if r0 ≤ r ∧ r < r0 + B.h ∧ c0 ≤ c ∧ c < c0 + B.w then
       B.v (r - r0) (c - c0)
     else A.v r c⟩

/-- Supported tile file formats (`fits`, `jpg`, `png`). -/
inductive FileFormat where
  | fits
  | jpg
  | png
deriving DecidableEq, Repr

/-- Sky coordinate frames used by tile metadata. -/
inductive SkyFrame where
  | icrs
  | galactic
  | ecliptic
deriving DecidableEq, Repr

/-- Embedding of `hips.tiles.tile.HipsTileMeta.__init__`: the `frame` and
`width` parameters default to `icrs` and `512`. -/
structure HipsTileMeta where
  order : ℕ
  ipix : ℕ
  file_format : FileFormat
  frame : SkyFrame := SkyFrame.icrs
  width : ℕ := 512
deriving DecidableEq, Repr

/-- Embedding of `hips.tiles.tile.HipsTile` for claims about pixel data:
metadata plus decoded pixel array.  The raw-byte cache and the codec are
collapsed: `from_numpy` followed by the `data` property is the identity on
the pixel array for the lossless formats the claims quantify over (the
`jpg`/`png` vertical flip applied at encode time is undone at decode
time). -/
structure HipsTile where
  meta : HipsTileMeta
  data : Arr ℤ

/-- Embedding of `HipsTile.children`: four quadrant slices of the parent
pixel array (`w = shape[0] // 2`), each wrapped in a new tile whose
metadata has `order + 1`, `ipix * 4 + idx`, the parent format and frame,
and the constructor default width. -/
def HipsTile.children (t : HipsTile) : List HipsTile :=
  let w := t.data.h / 2
  let quadrants : List (Arr ℤ) :=
    [sliceStop t.data 0 w 0 w,
     sliceStop t.data 0 w w (w * 2),
     sliceStop t.data w (w * 2) 0 w,
     sliceStop t.data w (w * 2) w (w * 2)]
  (List.range 4).zipWith
    (fun idx d =>
      { meta :=
          { order := t.meta.order + 1
            ipix := t.meta.ipix * 4 + idx
            file_format := t.meta.file_format
            frame := t.meta.frame }
        data := d })
    quadrants

/-- Embedding of `hips.tiles.tile.compute_image_shape`: 2-dim shape for
`fits`, 3 channels for `jpg`, 4 for `png`.  The Python function raises
`ValueError` on other format strings; unrepresentable format strings are
excluded by the `FileFormat` type. -/
def compute_image_shape (width height : ℕ) (fmt : FileFormat) : List ℕ :=
  match fmt with
  | .fits => [height, width]
  | .jpg => [height, width, 3]
  | .png => [height, width, 4]

/-! ## Tile fetching (`hips/tiles/fetch.py`)

The network collaborator is a function from URL to outcome; URLs are
abstracted as natural numbers.  Thread-pool nondeterminism is made
explicit: `completion` is the order (a permutation of the future indices)
in which `concurrent.futures.as_completed` yields the submitted futures. -/

/-- Outcome of one `urllib.request.urlopen` call against the network. -/
inductive NetOutcome where
  | ok (bytes : ℕ)
  | notFound
  | timeout
deriving DecidableEq, Repr

/-- Exceptions that `urlopen` / `future.result()` can raise for one tile:
an HTTP 404-equivalent error or a socket timeout. -/
inductive NetError where
  | notFound
  | timeout
deriving DecidableEq, Repr

/-- Embedding of the response dict `{'raw_data': ..., 'url': ...}`. -/
structure FetchResponse where
  raw_data : ℕ
  url : ℕ
deriving DecidableEq, Repr

/-- Tile as produced by `fetch_tiles`: metadata plus raw bytes
(`HipsTile(meta, raw_data)`, not yet decoded). -/
structure RawTile where
  meta : HipsTileMeta
  raw_data : ℕ
deriving DecidableEq, Repr

/-- Embedding of `fetch_tile_urllib`: `urlopen` either returns the body or
raises; the function has no handler, so the error propagates. -/
def fetch_tile_urllib (env : ℕ → NetOutcome) (url : ℕ) :
    Except NetError FetchResponse :=
  match env url with
  | .ok b => .ok ⟨b, url⟩
  | .notFound => .error .notFound
  | .timeout => .error .timeout

/-- Loop body of `tiles_urllib`: walk the futures in completion order,
appending `future.result()`; the first stored exception is re-raised and
aborts the whole loop (there is no try/except in the source). -/
def tiles_urllib_loop (env : ℕ → NetOutcome) (tile_urls : List ℕ) :
    List ℕ → Except NetError (List FetchResponse)
  | [] => .ok []
  | k :: ks =>
    match fetch_tile_urllib env (tile_urls.getD k 0) with
    | .error e => .error e
    | .ok r =>
      match tiles_urllib_loop env tile_urls ks with
      | .error e => .error e
      | .ok rest => .ok (r :: rest)

/-- Embedding of `tiles_urllib`: submit one future per URL to the pool and
collect results in completion order. -/
def tiles_urllib (env : ℕ → NetOutcome) (tile_urls : List ℕ)
    (completion : List ℕ) : Except NetError (List FetchResponse) :=
  tiles_urllib_loop env tile_urls completion

/-- Embedding of `tile_urls`: map the survey's `tile_url` over the metas. -/
def tile_urls (tile_metas : List HipsTileMeta) (tile_url : HipsTileMeta → ℕ) :
    List ℕ :=
  tile_metas.map tile_url

/-- Embedding of `fetch_tiles` (urllib backend): fetch all URLs, then
re-pair responses with metadata by the nested loop

  for tile_url in _tile_urls:
      for idx, response in enumerate(response_all):
          if response['url'] == tile_url:
              tiles.append(HipsTile(tile_metas[idx], response['raw_data']))

`idx` indexes `response_all` (completion order), exactly as in the source. -/
def fetch_tiles (tile_metas : List HipsTileMeta)
    (tile_url : HipsTileMeta → ℕ) (env : ℕ → NetOutcome)
    (completion : List ℕ) : Except NetError (List RawTile) :=
  let urls := tile_urls tile_metas tile_url
  match tiles_urllib env urls completion with
  | .error e => .error e
  | .ok response_all =>
    .ok (urls.flatMap fun url =>
      response_all.enum.filterMap fun p =>
        if p.2.url = url then
          some ⟨tile_metas.getD p.1 {order := 0, ipix := 0, file_format := .fits},
                p.2.raw_data⟩
        else none)

/-! ## C1 / C2: behaviour of `fetch_tiles` under per-tile failure and
out-of-order completion -/

/-- First tile metadata used in the fetch scenarios. -/
def metaA : HipsTileMeta := { order := 7, ipix := 0, file_format := .fits }

/-- Second tile metadata used in the fetch scenarios. -/
def metaB : HipsTileMeta := { order := 7, ipix := 1, file_format := .fits }

/-- Survey URL builder for the scenarios: each meta maps to the URL
numbered by its HEALPix index. -/
def metaUrl : HipsTileMeta → ℕ := fun m => m.ipix

/-- Network where every URL times out. -/
def envAllTimeout : ℕ → NetOutcome := fun _ => .timeout

/-- Network where URL 0 times out and every other URL succeeds. -/
def envFirstTimeout : ℕ → NetOutcome :=
  fun u => if u = 0 then .timeout else .ok 5

/-- Network where URL `u` serves body `10 + u`. -/
def envBoth : ℕ → NetOutcome := fun u => .ok (10 + u)

/-- C1: a single timed-out tile does not become a `Missing` outcome — the
exception propagates out of `future.result()` and aborts the whole batch,
both for a batch of one and for a batch where the other address would
have succeeded (so the remaining addresses are not delivered either). -/
theorem fetch_tiles_timeout_aborts_batch :
    fetch_tiles [metaA] metaUrl envAllTimeout [0] = .error .timeout ∧
    fetch_tiles [metaA, metaB] metaUrl envFirstTimeout [0, 1] =
      .error .timeout := by
  constructor <;> rfl

/-- C2: with both fetches succeeding but completing in reverse order, the
first returned tile carries the second address's metadata (paired with the
first address's bytes): the re-pairing loop uses the index of the response
in the completion-ordered list to select the metadata. -/
theorem fetch_tiles_misorders_metadata :
    fetch_tiles [metaA, metaB] metaUrl envBoth [1, 0] =
      .ok [⟨metaB, 10⟩, ⟨metaA, 11⟩] ∧ metaB ≠ metaA := by
  constructor
  · rfl
  · decide

/-! ## Allsky packing and splitting (`hips/tiles/allsky.py`) -/

/-- Embedding of `healpix_order_to_npix`: the external HEALPix library's
pixel count `12 * nside²` with `nside = 2^order`. -/
def healpix_order_to_npix (order : ℕ) : ℕ := 12 * 4 ^ order

/-- Search step for the floor square root: the largest `j ≤ k` with
`j * j ≤ n` (and `0` if there is none). -/
def natSqrtAux (n : ℕ) : ℕ → ℕ
  | 0 => 0
  | k + 1 => if (k + 1) * (k + 1) ≤ n then k + 1 else natSqrtAux n k

/-- Embedding of `int(np.sqrt(n_tiles))`: the floor square root, written
with structural recursion so that concrete instances evaluate. -/
def natSqrt (n : ℕ) : ℕ := natSqrtAux n n

theorem natSqrtAux_sq_le (n : ℕ) : ∀ k, natSqrtAux n k * natSqrtAux n k ≤ n := by
  intro k
  induction k with
  | zero => simp [natSqrtAux]
  | succ k ih =>
    by_cases h : (k + 1) * (k + 1) ≤ n
    · simp [natSqrtAux, h]
    · simpa [natSqrtAux, h] using ih

theorem le_natSqrtAux (n : ℕ) : ∀ k j, j ≤ k → j * j ≤ n → j ≤ natSqrtAux n k := by
  intro k
  induction k with
  | zero => intro j hj _; simpa [natSqrtAux] using hj
  | succ k ih =>
    intro j hj hjn
    by_cases h : (k + 1) * (k + 1) ≤ n
    · simpa [natSqrtAux, h] using hj
    · have hjk : j ≤ k := by
        rcases Nat.lt_or_ge j (k + 1) with h1 | h1
        · omega
        · exact absurd (Nat.le_trans (Nat.mul_le_mul h1 h1) hjn) h
      simpa [natSqrtAux, h] using ih j hjk hjn

/-- The structural floor square root agrees with `Nat.sqrt`. -/
theorem natSqrt_eq (n : ℕ) : natSqrt n = Nat.sqrt n := by
  apply Nat.le_antisymm
  · exact Nat.le_sqrt.mpr (natSqrtAux_sq_le n n)
  · exact le_natSqrtAux n n (Nat.sqrt n) (Nat.sqrt_le_self n) (Nat.sqrt_le n)

/-- Embedding of `HipsTileAllskyArray.tile`: extract one sub-tile.  The
allsky image is flipped to display orientation, the `_tile_slice`
rectangle for `ipix` is cut out, and the cut is flipped back; the tile
metadata gets the extracted `ipix` and the per-tile width
`self.width // n_tiles_in_row`. -/
def allsky_tile (meta0 : HipsTileMeta) (A : Arr ℤ) (ipix : ℕ) : HipsTile :=
  let n_tiles := healpix_order_to_npix meta0.order
  let n_tiles_in_row := natSqrt n_tiles
  let tile_width := A.w / n_tiles_in_row
  let row_idx := ipix / n_tiles_in_row
  let col_idx := ipix % n_tiles_in_row
  { meta := { meta0 with ipix := ipix, width := tile_width }
    data :=
      flipud (sliceStop (flipud A)
        (row_idx * tile_width) ((row_idx + 1) * tile_width)
        (col_idx * tile_width) ((col_idx + 1) * tile_width)) }

/-- Embedding of `HipsTileAllskyArray.tiles`: the list of all
`12 * 4^order` extracted sub-tiles, in `ipix` order. -/
def allsky_tiles (meta0 : HipsTileMeta) (A : Arr ℤ) : List HipsTile :=
  (List.range (healpix_order_to_npix meta0.order)).map (allsky_tile meta0 A)

/-- One iteration of the copy loop in `tiles_to_allsky_array`: flip the
accumulated image, assign the tile's flipped pixel data into its
`_tile_slice` rectangle, and flip back. -/
def pack_write (n_tiles_in_row : ℕ) (data : Arr ℤ) (t : HipsTile) : Arr ℤ :=
  let w := t.meta.width
  let row_idx := t.meta.ipix / n_tiles_in_row
  let col_idx := t.meta.ipix % n_tiles_in_row
  flipud (updateRegion (flipud data) (row_idx * w) (col_idx * w) (flipud t.data))

/-- Embedding of `HipsTileAllskyArray.tiles_to_allsky_array`: a zero
("blank") image of shape `(tile_width * (n_tiles // n_tiles_in_row + 1),
tile_width * n_tiles_in_row)` into which every tile is copied.  `tiles[0]`
raises `IndexError` on an empty list, hence `Option`. -/
def tiles_to_allsky_array (tiles : List HipsTile) : Option (Arr ℤ) :=
  match tiles with
  | [] => none
  | t0 :: _ =>
    let n_tiles := tiles.length
    let n_tiles_in_row := natSqrt n_tiles
    let n_tiles_in_col := n_tiles / n_tiles_in_row + 1
    let tile_width := t0.meta.width
    let init : Arr ℤ :=
      ⟨tile_width * n_tiles_in_col, tile_width * n_tiles_in_row, fun _ _ => 0⟩
    some (tiles.foldl (pack_write n_tiles_in_row) init)

/-- Metadata of the order-1 allsky array used as the C7 counterexample. -/
def meta48 : HipsTileMeta := { order := 1, ipix := 0, file_format := .fits }

/-- Order-1 all-ones packed array: 48 sub-tiles of width 1 in a row-major
grid with `rowsOfTiles = floor(sqrt(48)) = 6`, hence 8 rows of 6 tiles. -/
def A48 : Arr ℤ := ⟨8, 6, fun _ _ => 1⟩

set_option maxRecDepth 8000 in
/-- C7 counterexample: splitting the 8×6 order-1 grid into its 48 tiles
and re-packing yields a 9-row image (`48 // 6 + 1 = 9` tile rows, one
blank), so `pack (splitIntoTiles A) ≠ A` even for a lossless format. -/
theorem allsky_roundtrip_shape_mismatch :
    (tiles_to_allsky_array (allsky_tiles meta48 A48)).map Arr.h = some 9 ∧
    A48.h = 8 := by
  constructor <;> rfl

/-- The rectangle of the packed image written by `pack_write` for a tile
of width `w` at HEALPix index `ipix`: the vertical flips place tile row 0
at the bottom of its slot. -/
def writesCell (w nrow H ipix r c : ℕ) : Prop :=
  H - (ipix / nrow + 1) * w ≤ r ∧ r < H - (ipix / nrow + 1) * w + w ∧
  (ipix % nrow) * w ≤ c ∧ c < (ipix % nrow) * w + w

instance (w nrow H ipix r c : ℕ) : Decidable (writesCell w nrow H ipix r c) := by
  unfold writesCell; infer_instance

theorem pack_write_h (nrow : ℕ) (P : Arr ℤ) (t : HipsTile) :
    (pack_write nrow P t).h = P.h := rfl

theorem pack_write_w (nrow : ℕ) (P : Arr ℤ) (t : HipsTile) :
    (pack_write nrow P t).w = P.w := rfl

theorem pack_write_v (nrow : ℕ) (P : Arr ℤ) (t : HipsTile) (w : ℕ)
    (hw : t.meta.width = w) (hdh : t.data.h = w) (hdw : t.data.w = w)
    (hfit : (t.meta.ipix / nrow + 1) * w ≤ P.h)
    (r c : ℕ) (hr : r < P.h) :
    (pack_write nrow P t).v r c =
      if writesCell w nrow P.h t.meta.ipix r c then
        t.data.v (r - (P.h - (t.meta.ipix / nrow + 1) * w))
          (c - (t.meta.ipix % nrow) * w)
      else P.v r c := by
  have hsplit : (t.meta.ipix / nrow + 1) * w = (t.meta.ipix / nrow) * w + w := by
    ring
  simp only [pack_write, updateRegion, flipud, hw, hdh, hdw]
  unfold writesCell
  split_ifs with h1 h2 h2
  · congr 1
    omega
  · exact absurd ⟨by omega, by omega, by omega, by omega⟩ h2
  · exact absurd ⟨by omega, by omega, by omega, by omega⟩ h1
  · congr 1
    omega

theorem foldl_pack_write_h (nrow : ℕ) (l : List HipsTile) (P : Arr ℤ) :
    (l.foldl (pack_write nrow) P).h = P.h := by
  induction l generalizing P with
  | nil => rfl
  | cons t l ih => simpa [List.foldl_cons] using ih (pack_write nrow P t)

theorem foldl_pack_write_w (nrow : ℕ) (l : List HipsTile) (P : Arr ℤ) :
    (l.foldl (pack_write nrow) P).w = P.w := by
  induction l generalizing P with
  | nil => rfl
  | cons t l ih => simpa [List.foldl_cons] using ih (pack_write nrow P t)

/-- If no tile of the list writes the cell `(r, c)`, the fold leaves it at
its initial value. -/
theorem foldl_pack_write_nocover (nrow w : ℕ) (l : List HipsTile) (P : Arr ℤ)
    (r c : ℕ) (hr : r < P.h)
    (hinv : ∀ t ∈ l, t.meta.width = w ∧ t.data.h = w ∧ t.data.w = w ∧
      (t.meta.ipix / nrow + 1) * w ≤ P.h)
    (hnc : ∀ t ∈ l, ¬ writesCell w nrow P.h t.meta.ipix r c) :
    (l.foldl (pack_write nrow) P).v r c = P.v r c := by
  induction l generalizing P with
  | nil => rfl
  | cons t l ih =>
    have ht := hinv t (List.mem_cons_self t l)
    have h1 : (pack_write nrow P t).v r c = P.v r c := by
      rw [pack_write_v nrow P t w ht.1 ht.2.1 ht.2.2.1 ht.2.2.2 r c hr,
        if_neg (hnc t (List.mem_cons_self t l))]
    rw [List.foldl_cons,
      ih (pack_write nrow P t) hr
        (fun t' ht' => hinv t' (List.mem_cons_of_mem t ht'))
        (fun t' ht' => hnc t' (List.mem_cons_of_mem t ht')), h1]

/-- If exactly one tile of the list writes the cell `(r, c)`, the fold
produces that tile's pixel there. -/
theorem foldl_pack_write_cover (nrow w : ℕ) (l : List HipsTile) (P : Arr ℤ)
    (r c : ℕ) (t : HipsTile) (hr : r < P.h)
    (hinv : ∀ t' ∈ l, t'.meta.width = w ∧ t'.data.h = w ∧ t'.data.w = w ∧
      (t'.meta.ipix / nrow + 1) * w ≤ P.h)
    (hmem : t ∈ l) (hcov : writesCell w nrow P.h t.meta.ipix r c)
    (huniq : ∀ t' ∈ l, writesCell w nrow P.h t'.meta.ipix r c → t' = t) :
    (l.foldl (pack_write nrow) P).v r c =
      t.data.v (r - (P.h - (t.meta.ipix / nrow + 1) * w))
        (c - (t.meta.ipix % nrow) * w) := by
  induction l generalizing P with
  | nil => cases hmem
  | cons t0 l ih =>
    rw [List.foldl_cons]
    by_cases hrest : ∃ t' ∈ l, writesCell w nrow P.h t'.meta.ipix r c
    · obtain ⟨t', ht'l, ht'cov⟩ := hrest
      have heq : t' = t := huniq t' (List.mem_cons_of_mem t0 ht'l) ht'cov
      subst heq
      exact ih (pack_write nrow P t0) hr
        (fun u hu => hinv u (List.mem_cons_of_mem t0 hu)) ht'l ht'cov
        (fun u hu hc => huniq u (List.mem_cons_of_mem t0 hu) hc)
    · push_neg at hrest
      have ht : t = t0 := by
        rcases List.mem_cons.mp hmem with h | h
        · exact h
        · exact absurd hcov (hrest t h)
      subst ht
      have ht0 := hinv t (List.mem_cons_self t l)
      rw [foldl_pack_write_nocover nrow w l (pack_write nrow P t) r c hr
        (fun u hu => hinv u (List.mem_cons_of_mem t hu)) hrest,
        pack_write_v nrow P t w ht0.1 ht0.2.1 ht0.2.2.1 ht0.2.2.2 r c hr,
        if_pos hcov]

theorem allsky_tile_meta (meta0 : HipsTileMeta) (A : Arr ℤ) (i : ℕ) :
    (allsky_tile meta0 A i).meta.ipix = i ∧
    (allsky_tile meta0 A i).meta.width =
      A.w / natSqrt (healpix_order_to_npix meta0.order) := by
  exact ⟨rfl, rfl⟩

/-- Shape and pixel values of an extracted allsky sub-tile whose slot
rectangle fits inside the packed image. -/
theorem allsky_tile_spec (meta0 : HipsTileMeta) (A : Arr ℤ) (w nrow i : ℕ)
    (hnr : natSqrt (healpix_order_to_npix meta0.order) = nrow)
    (hnrow : 0 < nrow) (hW : A.w = w * nrow)
    (hfith : (i / nrow + 1) * w ≤ A.h)
    (hfitw : (i % nrow + 1) * w ≤ A.w) :
    (allsky_tile meta0 A i).meta.width = w ∧
    (allsky_tile meta0 A i).data.h = w ∧
    (allsky_tile meta0 A i).data.w = w ∧
    ∀ a b, a < w → b < w →
      (allsky_tile meta0 A i).data.v a b =
        A.v (A.h - (i / nrow + 1) * w + a) ((i % nrow) * w + b) := by
  have htw : A.w / nrow = w := by
    rw [hW, Nat.mul_div_cancel w hnrow]
  have hsplith : (i / nrow + 1) * w = (i / nrow) * w + w := by ring
  have hsplitw : (i % nrow + 1) * w = (i % nrow) * w + w := by ring
  have hm1 : min ((i / nrow + 1) * w) A.h = (i / nrow + 1) * w := min_eq_left hfith
  have hm2 : min ((i / nrow) * w) A.h = (i / nrow) * w := min_eq_left (by omega)
  have hm3 : min ((i % nrow + 1) * w) A.w = (i % nrow + 1) * w := min_eq_left hfitw
  have hm4 : min ((i % nrow) * w) A.w = (i % nrow) * w := min_eq_left (by omega)
  refine ⟨by simp [allsky_tile, hnr, htw], ?_, ?_, ?_⟩
  · simp only [allsky_tile, flipud, sliceStop, hnr, htw, hm1, hm2]
    omega
  · simp only [allsky_tile, flipud, sliceStop, hnr, htw, hm3, hm4]
    omega
  · intro a b ha hb
    simp only [allsky_tile, flipud, sliceStop, hnr, htw, hm1, hm2, hm3, hm4]
    congr 1
    omega

/-- C7 (amended): packing the tiles split out of an allsky image `A`
reproduces `A` exactly — for an `A` that has the shape the packer itself
produces (`w * (n_tiles / rowsOfTiles + 1)` pixel rows, including the
final partially-blank tile row) and is blank (zero) on the grid slots
beyond tile `n_tiles - 1`. -/
theorem allsky_pack_split_roundtrip (meta0 : HipsTileMeta) (A : Arr ℤ)
    (w nrow : ℕ) (hw : 0 < w)
    (hnr : natSqrt (healpix_order_to_npix meta0.order) = nrow)
    (hW : A.w = w * nrow)
    (hH : A.h = w * (healpix_order_to_npix meta0.order / nrow + 1))
    (hblank : ∀ r, r < A.h → ∀ c, c < A.w →
      healpix_order_to_npix meta0.order ≤
        ((A.h - 1 - r) / w) * nrow + c / w →
      A.v r c = 0) :
    ∃ P, tiles_to_allsky_array (allsky_tiles meta0 A) = some P ∧ arrEq P A := by
  have hn0 : 0 < healpix_order_to_npix meta0.order := by
    unfold healpix_order_to_npix; positivity
  have hnrow : 0 < nrow := by
    rw [← hnr, natSqrt_eq]
    exact Nat.sqrt_pos.mpr hn0
  obtain ⟨m, hm⟩ : ∃ m, healpix_order_to_npix meta0.order = m + 1 :=
    ⟨healpix_order_to_npix meta0.order - 1, by omega⟩
  have hcons : allsky_tiles meta0 A =
      allsky_tile meta0 A 0 ::
        (List.range m).map (fun i => allsky_tile meta0 A (i + 1)) := by
    unfold allsky_tiles
    rw [hm, List.range_succ_eq_map, List.map_cons, List.map_map]
    rfl
  have hmem_char : ∀ t' ∈ allsky_tiles meta0 A,
      ∃ i, i < healpix_order_to_npix meta0.order ∧
        t' = allsky_tile meta0 A i := by
    intro t' ht'
    unfold allsky_tiles at ht'
    obtain ⟨i, hi, hfi⟩ := List.mem_map.mp ht'
    exact ⟨i, List.mem_range.mp hi, hfi.symm⟩
  have hfit_all : ∀ i, i < healpix_order_to_npix meta0.order →
      (i / nrow + 1) * w ≤ A.h ∧ (i % nrow + 1) * w ≤ A.w := by
    intro i hi
    constructor
    · calc (i / nrow + 1) * w
          ≤ (healpix_order_to_npix meta0.order / nrow + 1) * w := by
            have hdd : i / nrow ≤ healpix_order_to_npix meta0.order / nrow :=
              Nat.div_le_div_right (Nat.le_of_lt hi)
            exact Nat.mul_le_mul_right w (by omega)
      _ = A.h := by rw [hH]; ring
    · calc (i % nrow + 1) * w ≤ nrow * w := by
            have := Nat.mod_lt i hnrow
            exact Nat.mul_le_mul_right w (by omega)
      _ = A.w := by rw [hW]; ring
  have hspec := fun i hi =>
    allsky_tile_spec meta0 A w nrow i hnr hnrow hW
      (hfit_all i hi).1 (hfit_all i hi).2
  have hinvL : ∀ t' ∈ allsky_tiles meta0 A,
      t'.meta.width = w ∧ t'.data.h = w ∧ t'.data.w = w ∧
      (t'.meta.ipix / nrow + 1) * w ≤ A.h := by
    intro t' ht'
    obtain ⟨i, hi, rfl⟩ := hmem_char t' ht'
    have hs := hspec i hi
    exact ⟨hs.1, hs.2.1, hs.2.2.1, (hfit_all i hi).1⟩
  have hlen : (allsky_tiles meta0 A).length = healpix_order_to_npix meta0.order := by
    unfold allsky_tiles
    simp
  have htw0 : (allsky_tile meta0 A 0).meta.width = w := by
    show A.w / natSqrt (healpix_order_to_npix meta0.order) = w
    rw [hnr, hW, Nat.mul_div_cancel w hnrow]
  have hP0h : (⟨A.h, A.w, fun _ _ => (0 : ℤ)⟩ : Arr ℤ).h = A.h := rfl
  rw [hcons] at hinvL hlen ⊢
  rw [hcons] at hmem_char
  refine ⟨_, rfl, ?_⟩
  simp only [hlen, hnr, htw0, ← hH, ← hW]
  refine ⟨foldl_pack_write_h nrow _ _, foldl_pack_write_w nrow _ _, ?_⟩
  intro r hr c hc
  have hrA : r < A.h := by
    rw [foldl_pack_write_h] at hr
    exact hr
  have hcA : c < A.w := by
    rw [foldl_pack_write_w] at hc
    exact hc
  have hdivmod_r := Nat.div_add_mod (A.h - 1 - r) w
  have hmod_r : (A.h - 1 - r) % w < w := Nat.mod_lt _ hw
  have hdivmod_c := Nat.div_add_mod c w
  have hmod_c : c % w < w := Nat.mod_lt _ hw
  have hsc : c / w < nrow := by
    refine (Nat.div_lt_iff_lt_mul hw).mpr ?_
    have e : nrow * w = w * nrow := by ring
    omega
  have hsr : (A.h - 1 - r) / w < healpix_order_to_npix meta0.order / nrow + 1 := by
    refine (Nat.div_lt_iff_lt_mul hw).mpr ?_
    have e : (healpix_order_to_npix meta0.order / nrow + 1) * w =
        w * (healpix_order_to_npix meta0.order / nrow + 1) := by ring
    omega
  have hfitr : ((A.h - 1 - r) / w + 1) * w ≤ A.h := by
    calc ((A.h - 1 - r) / w + 1) * w
        ≤ (healpix_order_to_npix meta0.order / nrow + 1) * w :=
          Nat.mul_le_mul_right w hsr
    _ = A.h := by rw [hH]; ring
  have e1r : ((A.h - 1 - r) / w + 1) * w = ((A.h - 1 - r) / w) * w + w := by ring
  have e2r : ((A.h - 1 - r) / w) * w = w * ((A.h - 1 - r) / w) := by ring
  have e3c : (c / w) * w = w * (c / w) := by ring
  have hslot_eq : ∀ i, i < healpix_order_to_npix meta0.order →
      writesCell w nrow A.h i r c →
      i = ((A.h - 1 - r) / w) * nrow + c / w := by
    intro i hi hcov
    obtain ⟨hc1, hc2, hc3, hc4⟩ := hcov
    have hfii := (hfit_all i hi).1
    have e1 : (i / nrow + 1) * w = (i / nrow) * w + w := by ring
    have hrow : (A.h - 1 - r) / w = i / nrow := by
      refine Nat.div_eq_of_lt_le ?_ ?_ <;> omega
    have hcol : c / w = i % nrow := by
      have e2 : (i % nrow + 1) * w = (i % nrow) * w + w := by ring
      refine Nat.div_eq_of_lt_le ?_ ?_ <;> omega
    have hdm := Nat.div_add_mod i nrow
    rw [← hrow, ← hcol] at hdm
    have e3 : ((A.h - 1 - r) / w) * nrow = nrow * ((A.h - 1 - r) / w) := by ring
    omega
  by_cases hslot : ((A.h - 1 - r) / w) * nrow + c / w < healpix_order_to_npix meta0.order
  · -- the unique covering tile was copied to this cell
    have hmem : allsky_tile meta0 A (((A.h - 1 - r) / w) * nrow + c / w) ∈
        allsky_tile meta0 A 0 ::
          (List.range m).map (fun i => allsky_tile meta0 A (i + 1)) := by
      rw [← hcons]
      unfold allsky_tiles
      exact List.mem_map_of_mem _ (List.mem_range.mpr hslot)
    have hdiv_slot : (((A.h - 1 - r) / w) * nrow + c / w) / nrow
        = (A.h - 1 - r) / w := by
      rw [Nat.add_comm, Nat.add_mul_div_right _ _ hnrow, Nat.div_eq_of_lt hsc,
        Nat.zero_add]
    have hmod_slot : (((A.h - 1 - r) / w) * nrow + c / w) % nrow = c / w := by
      rw [Nat.add_comm, Nat.add_mul_mod_self_right, Nat.mod_eq_of_lt hsc]
    have hip : (allsky_tile meta0 A
        (((A.h - 1 - r) / w) * nrow + c / w)).meta.ipix =
        ((A.h - 1 - r) / w) * nrow + c / w := rfl
    have hcov : writesCell w nrow A.h
        (((A.h - 1 - r) / w) * nrow + c / w) r c := by
      unfold writesCell
      rw [hdiv_slot, hmod_slot]
      refine ⟨by omega, by omega, by omega, by omega⟩
    have huniq : ∀ t' ∈ allsky_tile meta0 A 0 ::
        (List.range m).map (fun i => allsky_tile meta0 A (i + 1)),
        writesCell w nrow A.h t'.meta.ipix r c →
        t' = allsky_tile meta0 A (((A.h - 1 - r) / w) * nrow + c / w) := by
      intro t' ht' hcov'
      obtain ⟨i, hi, rfl⟩ := hmem_char t' ht'
      rw [hslot_eq i hi hcov']
    rw [foldl_pack_write_cover nrow w _ (⟨A.h, A.w, fun _ _ => (0 : ℤ)⟩ : Arr ℤ)
      r c (allsky_tile meta0 A (((A.h - 1 - r) / w) * nrow + c / w)) hrA hinvL
      hmem (by rw [hip]; exact hcov) huniq]
    simp only [hP0h, hip, hdiv_slot, hmod_slot]
    have hs := hspec (((A.h - 1 - r) / w) * nrow + c / w) hslot
    have ha : r - (A.h - ((A.h - 1 - r) / w + 1) * w) < w := by omega
    have hb : c - (c / w) * w < w := by omega
    rw [hs.2.2.2 _ _ ha hb]
    rw [hdiv_slot, hmod_slot]
    have ex : A.h - ((A.h - 1 - r) / w + 1) * w +
        (r - (A.h - ((A.h - 1 - r) / w + 1) * w)) = r := by omega
    have ey : (c / w) * w + (c - (c / w) * w) = c := by omega
    rw [ex, ey]
  · have hnc : ∀ t' ∈ allsky_tile meta0 A 0 ::
        (List.range m).map (fun i => allsky_tile meta0 A (i + 1)),
        ¬ writesCell w nrow A.h t'.meta.ipix r c := by
      intro t' ht' hcov'
      obtain ⟨i, hi, rfl⟩ := hmem_char t' ht'
      exact hslot (hslot_eq i hi hcov' ▸ hi)
    rw [foldl_pack_write_nocover nrow w _ (⟨A.h, A.w, fun _ _ => (0 : ℤ)⟩ : Arr ℤ)
      r c hrA hinvL hnc]
    exact (hblank r hrA c hcA (Nat.not_lt.mp hslot)).symm

/-- Order-1 packed array with the shape `pack` produces: 9 tile rows of 6
one-pixel tiles, blank (zero) on the top row, which holds the slots past
tile 47. -/
def A9 : Arr ℤ := ⟨9, 6, fun r c => if 1 ≤ r then (r * 6 + c : ℤ) else 0⟩

set_option maxRecDepth 2000 in
/-- Witness for the amended C7 round trip at order 1 with tile width 1. -/
theorem allsky_pack_split_roundtrip_witness :
    (0 < 1 ∧ natSqrt (healpix_order_to_npix meta48.order) = 6 ∧
      A9.w = 1 * 6 ∧ A9.h = 1 * (healpix_order_to_npix meta48.order / 6 + 1) ∧
      (∀ r, r < A9.h → ∀ c, c < A9.w →
        healpix_order_to_npix meta48.order ≤ ((A9.h - 1 - r) / 1) * 6 + c / 1 →
        A9.v r c = 0)) ∧
    ∃ P, tiles_to_allsky_array (allsky_tiles meta48 A9) = some P ∧ arrEq P A9 :=
  ⟨⟨by decide, by decide, by decide, by decide, by decide⟩,
   allsky_pack_split_roundtrip meta48 A9 1 6 (by decide) (by decide) (by decide)
     (by decide) (by decide)⟩

/-! ## HEALPix tile ipix table (`hips/utils/healpix.py`,
`hips_tile_healpix_ipix_array`) -/

/-- Embedding of `np.tile(m, reps=(2, 2))` for a 2-d array. -/
def np_tile_2x2 (A : Arr ℕ) : Arr ℕ :=
  ⟨2 * A.h, 2 * A.w, fun i j => A.v (i % A.h) (j % A.w)⟩

/-- Embedding of `np.repeat(m, k, axis=0)`. -/
def np_repeat_rows (k : ℕ) (A : Arr ℕ) : Arr ℕ :=
  ⟨k * A.h, A.w, fun i j => A.v (i / k) j⟩

/-- Embedding of `np.repeat(m, k, axis=1)`. -/
def np_repeat_cols (k : ℕ) (A : Arr ℕ) : Arr ℕ :=
  ⟨A.h, k * A.w, fun i j => A.v i (j / k)⟩

/-- Elementwise sum of two equal-shaped arrays. -/
def arr_add (A B : Arr ℕ) : Arr ℕ :=
  ⟨A.h, A.w, fun i j => A.v i j + B.v i j⟩

/-- Scalar multiple of an array. -/
def scalar_mul (c : ℕ) (A : Arr ℕ) : Arr ℕ :=
  ⟨A.h, A.w, fun i j => c * A.v i j⟩

/-- The literal `np.array([[0, 1], [2, 3]])`. -/
def quad22 : Arr ℕ :=
  ⟨2, 2, fun i j =>
    if i = 0 then (if j = 0 then 0 else 1) else (if j = 0 then 2 else 3)⟩

/-- Recursive core of `hips_tile_healpix_ipix_array`: base case
`[[0, 1], [2, 3]]` at shift order 1; otherwise four tiled copies of the
parent plus per-quadrant offsets `repeats² * [[0, 1], [2, 3]]` expanded by
`np.repeat` along both axes.  Shift order 0 is unreachable (the guard of
the public function rejects it). -/
def hips_ipix_rec : ℕ → Arr ℕ
  | 0 => ⟨1, 1, fun _ _ => 0⟩
  | 1 => quad22
  | (t + 2) =>
    let ipix_parent := hips_ipix_rec (t + 1)
    let data1 := np_tile_2x2 ipix_parent
    let repeats := 2 ^ (t + 1)
    let data2 :=
      np_repeat_cols repeats
        (np_repeat_rows repeats (scalar_mul (repeats * repeats) quad22))
    arr_add data1 data2

/-- Embedding of `hips_tile_healpix_ipix_array`: a `TypeError` for
non-integer input is unrepresentable (the argument type is `ℤ`); the
`ValueError` guard for shift orders outside 1..16 becomes `none`. -/
def hips_tile_healpix_ipix_array (shift_order : ℤ) : Option (Arr ℕ) :=
  if 1 ≤ shift_order ∧ shift_order ≤ 16 then
    some (hips_ipix_rec shift_order.toNat)
  else none

theorem hips_ipix_rec_shape (n : ℕ) :
    (hips_ipix_rec (n + 1)).h = 2 ^ (n + 1) ∧
    (hips_ipix_rec (n + 1)).w = 2 ^ (n + 1) := by
  induction n with
  | zero => exact ⟨rfl, rfl⟩
  | succ t ih =>
    constructor
    · show 2 * (hips_ipix_rec (t + 1)).h = 2 ^ (t + 2)
      rw [ih.1]; ring
    · show 2 * (hips_ipix_rec (t + 1)).w = 2 ^ (t + 2)
      rw [ih.2]; ring

theorem quad22_v : ∀ a, a < 2 → ∀ b, b < 2 → quad22.v a b = 2 * a + b := by
  decide

theorem hips_ipix_rec_step_v (t i j : ℕ)
    (hiR : i / 2 ^ (t + 1) < 2) (hjR : j / 2 ^ (t + 1) < 2) :
    (hips_ipix_rec (t + 2)).v i j =
      (hips_ipix_rec (t + 1)).v (i % (hips_ipix_rec (t + 1)).h)
        (j % (hips_ipix_rec (t + 1)).w) +
      2 ^ (t + 1) * 2 ^ (t + 1) * (2 * (i / 2 ^ (t + 1)) + j / 2 ^ (t + 1)) := by
  show (hips_ipix_rec (t + 1)).v (i % (hips_ipix_rec (t + 1)).h)
      (j % (hips_ipix_rec (t + 1)).w) +
    2 ^ (t + 1) * 2 ^ (t + 1) * quad22.v (i / 2 ^ (t + 1)) (j / 2 ^ (t + 1)) = _
  rw [quad22_v _ hiR _ hjR]

theorem hips_ipix_rec_bij (n : ℕ) :
    (∀ i j, i < 2 ^ (n + 1) → j < 2 ^ (n + 1) →
      (hips_ipix_rec (n + 1)).v i j < 4 ^ (n + 1)) ∧
    (∀ i j i' j', i < 2 ^ (n + 1) → j < 2 ^ (n + 1) → i' < 2 ^ (n + 1) →
      j' < 2 ^ (n + 1) →
      (hips_ipix_rec (n + 1)).v i j = (hips_ipix_rec (n + 1)).v i' j' →
      i = i' ∧ j = j') ∧
    (∀ x, x < 4 ^ (n + 1) → ∃ i j, i < 2 ^ (n + 1) ∧ j < 2 ^ (n + 1) ∧
      (hips_ipix_rec (n + 1)).v i j = x) := by
  induction n with
  | zero =>
    refine ⟨?_, ?_, ?_⟩
    · intro i j hi hj
      interval_cases i <;> interval_cases j <;> decide
    · intro i j i' j' hi hj hi' hj' heq
      interval_cases i <;> interval_cases j <;> interval_cases i' <;>
        interval_cases j' <;> revert heq <;> decide
    · intro x hx
      interval_cases x
      · exact ⟨0, 0, by decide, by decide, by decide⟩
      · exact ⟨0, 1, by decide, by decide, by decide⟩
      · exact ⟨1, 0, by decide, by decide, by decide⟩
      · exact ⟨1, 1, by decide, by decide, by decide⟩
  | succ t ih =>
    obtain ⟨ihB, ihI, ihS⟩ := ih
    have hR : (0 : ℕ) < 2 ^ (t + 1) := by positivity
    have hR2 : (0 : ℕ) < 2 ^ (t + 1) * 2 ^ (t + 1) := by positivity
    have hsh := hips_ipix_rec_shape t
    have hRR : (4 : ℕ) ^ (t + 1) = 2 ^ (t + 1) * 2 ^ (t + 1) := by
      rw [show (4 : ℕ) = 2 * 2 from rfl, Nat.mul_pow]
    have h2R : (2 : ℕ) ^ (t + 2) = 2 * 2 ^ (t + 1) := by ring
    have h4R : (4 : ℕ) ^ (t + 2) = 4 * 4 ^ (t + 1) := by ring
    have hdivlt : ∀ i, i < 2 ^ (t + 2) → i / 2 ^ (t + 1) < 2 := by
      intro i hi
      refine (Nat.div_lt_iff_lt_mul hR).mpr ?_
      omega
    refine ⟨?_, ?_, ?_⟩
    · intro i j hi hj
      rw [hips_ipix_rec_step_v t i j (hdivlt i hi) (hdivlt j hj), hsh.1, hsh.2]
      have hb := ihB (i % 2 ^ (t + 1)) (j % 2 ^ (t + 1))
        (Nat.mod_lt _ hR) (Nat.mod_lt _ hR)
      have hq : 2 * (i / 2 ^ (t + 1)) + j / 2 ^ (t + 1) ≤ 3 := by
        have h1 := hdivlt i hi
        have h2 := hdivlt j hj
        omega
      have hmul : 2 ^ (t + 1) * 2 ^ (t + 1) *
          (2 * (i / 2 ^ (t + 1)) + j / 2 ^ (t + 1)) ≤
          2 ^ (t + 1) * 2 ^ (t + 1) * 3 := Nat.mul_le_mul_left _ hq
      omega
    · intro i j i' j' hi hj hi' hj' heq
      rw [hips_ipix_rec_step_v t i j (hdivlt i hi) (hdivlt j hj), hsh.1, hsh.2,
        hips_ipix_rec_step_v t i' j' (hdivlt i' hi') (hdivlt j' hj'),
        hsh.1, hsh.2] at heq
      have hb := ihB (i % 2 ^ (t + 1)) (j % 2 ^ (t + 1))
        (Nat.mod_lt _ hR) (Nat.mod_lt _ hR)
      have hb' := ihB (i' % 2 ^ (t + 1)) (j' % 2 ^ (t + 1))
        (Nat.mod_lt _ hR) (Nat.mod_lt _ hR)
      rw [hRR] at hb hb'
      have e1 : ((hips_ipix_rec (t + 1)).v (i % 2 ^ (t + 1)) (j % 2 ^ (t + 1)) +
          2 ^ (t + 1) * 2 ^ (t + 1) *
            (2 * (i / 2 ^ (t + 1)) + j / 2 ^ (t + 1))) /
          (2 ^ (t + 1) * 2 ^ (t + 1)) =
          2 * (i / 2 ^ (t + 1)) + j / 2 ^ (t + 1) := by
        rw [Nat.add_mul_div_left _ _ hR2, Nat.div_eq_of_lt hb, Nat.zero_add]
      have e2 : ((hips_ipix_rec (t + 1)).v (i' % 2 ^ (t + 1)) (j' % 2 ^ (t + 1)) +
          2 ^ (t + 1) * 2 ^ (t + 1) *
            (2 * (i' / 2 ^ (t + 1)) + j' / 2 ^ (t + 1))) /
          (2 ^ (t + 1) * 2 ^ (t + 1)) =
          2 * (i' / 2 ^ (t + 1)) + j' / 2 ^ (t + 1) := by
        rw [Nat.add_mul_div_left _ _ hR2, Nat.div_eq_of_lt hb', Nat.zero_add]
      have hq_eq : 2 * (i / 2 ^ (t + 1)) + j / 2 ^ (t + 1) =
          2 * (i' / 2 ^ (t + 1)) + j' / 2 ^ (t + 1) := by
        rw [← e1, ← e2, heq]
      have hqi := hdivlt i hi
      have hqj := hdivlt j hj
      have hqi' := hdivlt i' hi'
      have hqj' := hdivlt j' hj'
      have hdiv2 : i / 2 ^ (t + 1) = i' / 2 ^ (t + 1) ∧
          j / 2 ^ (t + 1) = j' / 2 ^ (t + 1) := by
        clear heq e1 e2 hb hb'
        revert hq_eq hqi hqj hqi' hqj'
        generalize i / 2 ^ (t + 1) = a1
        generalize j / 2 ^ (t + 1) = b1
        generalize i' / 2 ^ (t + 1) = a2
        generalize j' / 2 ^ (t + 1) = b2
        intro h1 h2 h3 h4 h5
        omega
      obtain ⟨hdivi, hdivj⟩ := hdiv2
      have hx : (hips_ipix_rec (t + 1)).v (i % 2 ^ (t + 1)) (j % 2 ^ (t + 1)) =
          (hips_ipix_rec (t + 1)).v (i' % 2 ^ (t + 1)) (j' % 2 ^ (t + 1)) := by
        rw [hdivi, hdivj] at heq
        omega
      obtain ⟨hmi, hmj⟩ := ihI (i % 2 ^ (t + 1)) (j % 2 ^ (t + 1))
        (i' % 2 ^ (t + 1)) (j' % 2 ^ (t + 1))
        (Nat.mod_lt _ hR) (Nat.mod_lt _ hR) (Nat.mod_lt _ hR) (Nat.mod_lt _ hR) hx
      have di := Nat.div_add_mod i (2 ^ (t + 1))
      have di' := Nat.div_add_mod i' (2 ^ (t + 1))
      have dj := Nat.div_add_mod j (2 ^ (t + 1))
      have dj' := Nat.div_add_mod j' (2 ^ (t + 1))
      have ei : 2 ^ (t + 1) * (i / 2 ^ (t + 1)) =
          2 ^ (t + 1) * (i' / 2 ^ (t + 1)) := by rw [hdivi]
      have ej : 2 ^ (t + 1) * (j / 2 ^ (t + 1)) =
          2 ^ (t + 1) * (j' / 2 ^ (t + 1)) := by rw [hdivj]
      constructor
      · omega
      · omega
    · intro x hx
      have hq4 : x / (2 ^ (t + 1) * 2 ^ (t + 1)) < 4 := by
        refine (Nat.div_lt_iff_lt_mul hR2).mpr ?_
        omega
      have hrem : x % (2 ^ (t + 1) * 2 ^ (t + 1)) < 2 ^ (t + 1) * 2 ^ (t + 1) :=
        Nat.mod_lt _ hR2
      obtain ⟨iL, jL, hiL, hjL, hvL⟩ :=
        ihS (x % (2 ^ (t + 1) * 2 ^ (t + 1))) (by omega)
      have hqh : x / (2 ^ (t + 1) * 2 ^ (t + 1)) / 2 ≤ 1 := by omega
      have hql : x / (2 ^ (t + 1) * 2 ^ (t + 1)) % 2 ≤ 1 := by omega
      have hmulh : x / (2 ^ (t + 1) * 2 ^ (t + 1)) / 2 * 2 ^ (t + 1) ≤
          1 * 2 ^ (t + 1) := Nat.mul_le_mul_right _ hqh
      have hmull : x / (2 ^ (t + 1) * 2 ^ (t + 1)) % 2 * 2 ^ (t + 1) ≤
          1 * 2 ^ (t + 1) := Nat.mul_le_mul_right _ hql
      have hone : 1 * 2 ^ (t + 1) = 2 ^ (t + 1) := by ring
      have hdiv_i : (x / (2 ^ (t + 1) * 2 ^ (t + 1)) / 2 * 2 ^ (t + 1) + iL) /
          2 ^ (t + 1) = x / (2 ^ (t + 1) * 2 ^ (t + 1)) / 2 := by
        rw [Nat.add_comm, Nat.add_mul_div_right _ _ hR, Nat.div_eq_of_lt hiL,
          Nat.zero_add]
      have hmod_i : (x / (2 ^ (t + 1) * 2 ^ (t + 1)) / 2 * 2 ^ (t + 1) + iL) %
          2 ^ (t + 1) = iL := by
        rw [Nat.add_comm, Nat.add_mul_mod_self_right, Nat.mod_eq_of_lt hiL]
      have hdiv_j : (x / (2 ^ (t + 1) * 2 ^ (t + 1)) % 2 * 2 ^ (t + 1) + jL) /
          2 ^ (t + 1) = x / (2 ^ (t + 1) * 2 ^ (t + 1)) % 2 := by
        rw [Nat.add_comm, Nat.add_mul_div_right _ _ hR, Nat.div_eq_of_lt hjL,
          Nat.zero_add]
      have hmod_j : (x / (2 ^ (t + 1) * 2 ^ (t + 1)) % 2 * 2 ^ (t + 1) + jL) %
          2 ^ (t + 1) = jL := by
        rw [Nat.add_comm, Nat.add_mul_mod_self_right, Nat.mod_eq_of_lt hjL]
      refine ⟨x / (2 ^ (t + 1) * 2 ^ (t + 1)) / 2 * 2 ^ (t + 1) + iL,
        x / (2 ^ (t + 1) * 2 ^ (t + 1)) % 2 * 2 ^ (t + 1) + jL,
        by omega, by omega, ?_⟩
      rw [hips_ipix_rec_step_v t _ _ (by rw [hdiv_i]; omega) (by rw [hdiv_j]; omega),
        hsh.1, hsh.2, hdiv_i, hmod_i, hdiv_j, hmod_j, hvL]
      have hdm2 := Nat.div_add_mod (x / (2 ^ (t + 1) * 2 ^ (t + 1))) 2
      have hdmx := Nat.div_add_mod x (2 ^ (t + 1) * 2 ^ (t + 1))
      have hdistr : 2 ^ (t + 1) * 2 ^ (t + 1) *
          (2 * (x / (2 ^ (t + 1) * 2 ^ (t + 1)) / 2) +
            x / (2 ^ (t + 1) * 2 ^ (t + 1)) % 2) =
          2 ^ (t + 1) * 2 ^ (t + 1) * (2 * (x / (2 ^ (t + 1) * 2 ^ (t + 1)) / 2)) +
          2 ^ (t + 1) * 2 ^ (t + 1) * (x / (2 ^ (t + 1) * 2 ^ (t + 1)) % 2) := by
        ring
      have hdistr2 : 2 ^ (t + 1) * 2 ^ (t + 1) *
          (2 * (x / (2 ^ (t + 1) * 2 ^ (t + 1)) / 2)) +
          2 ^ (t + 1) * 2 ^ (t + 1) * (x / (2 ^ (t + 1) * 2 ^ (t + 1)) % 2) =
          2 ^ (t + 1) * 2 ^ (t + 1) *
            (x / (2 ^ (t + 1) * 2 ^ (t + 1)) / 2 * 2 +
              x / (2 ^ (t + 1) * 2 ^ (t + 1)) % 2) := by
        ring
      have hq : x / (2 ^ (t + 1) * 2 ^ (t + 1)) / 2 * 2 +
          x / (2 ^ (t + 1) * 2 ^ (t + 1)) % 2 =
          x / (2 ^ (t + 1) * 2 ^ (t + 1)) := by omega
      rw [hdistr, hdistr2, hq]
      omega

/-- C9: for every shift order in 1..16 the function returns a
`2^s × 2^s` array whose entries are a bijection between tile pixel
positions and the relative nested ipix values `0 .. 4^s - 1`; for any
integer shift order outside that range it raises (`none`) instead. -/
theorem hips_tile_healpix_ipix_array_spec (s : ℤ) :
    (1 ≤ s ∧ s ≤ 16 →
      ∃ A, hips_tile_healpix_ipix_array s = some A ∧
        A.h = 2 ^ s.toNat ∧ A.w = 2 ^ s.toNat ∧
        (∀ i j, i < 2 ^ s.toNat → j < 2 ^ s.toNat → A.v i j < 4 ^ s.toNat) ∧
        (∀ i j i' j', i < 2 ^ s.toNat → j < 2 ^ s.toNat → i' < 2 ^ s.toNat →
          j' < 2 ^ s.toNat → A.v i j = A.v i' j' → i = i' ∧ j = j') ∧
        (∀ x, x < 4 ^ s.toNat → ∃ i j, i < 2 ^ s.toNat ∧ j < 2 ^ s.toNat ∧
          A.v i j = x)) ∧
    (¬ (1 ≤ s ∧ s ≤ 16) → hips_tile_healpix_ipix_array s = none) := by
  constructor
  · intro hs
    obtain ⟨m, hm⟩ : ∃ m, s.toNat = m + 1 := ⟨s.toNat - 1, by omega⟩
    refine ⟨hips_ipix_rec s.toNat,
      by unfold hips_tile_healpix_ipix_array; rw [if_pos hs],
      ?_, ?_, ?_, ?_, ?_⟩ <;> rw [hm]
    · exact (hips_ipix_rec_shape m).1
    · exact (hips_ipix_rec_shape m).2
    · exact (hips_ipix_rec_bij m).1
    · exact (hips_ipix_rec_bij m).2.1
    · exact (hips_ipix_rec_bij m).2.2
  · intro hs
    unfold hips_tile_healpix_ipix_array
    rw [if_neg hs]

/-- Witness for C9 at shift order 2. -/
theorem hips_tile_healpix_ipix_array_spec_witness :
    ((1 : ℤ) ≤ 2 ∧ (2 : ℤ) ≤ 16) ∧
    (∃ A, hips_tile_healpix_ipix_array 2 = some A ∧
      A.h = 2 ^ (2 : ℤ).toNat ∧ A.w = 2 ^ (2 : ℤ).toNat ∧
      (∀ i j, i < 2 ^ (2 : ℤ).toNat → j < 2 ^ (2 : ℤ).toNat →
        A.v i j < 4 ^ (2 : ℤ).toNat) ∧
      (∀ i j i' j', i < 2 ^ (2 : ℤ).toNat → j < 2 ^ (2 : ℤ).toNat →
        i' < 2 ^ (2 : ℤ).toNat → j' < 2 ^ (2 : ℤ).toNat →
        A.v i j = A.v i' j' → i = i' ∧ j = j') ∧
      (∀ x, x < 4 ^ (2 : ℤ).toNat → ∃ i j, i < 2 ^ (2 : ℤ).toNat ∧
        j < 2 ^ (2 : ℤ).toNat ∧ A.v i j = x)) :=
  ⟨by decide, (hips_tile_healpix_ipix_array_spec 2).1 (by decide)⟩

/-! ## Distortion test and precise-mode draw list (`hips/draw/paint.py`) -/

/-- Reprojected tile corner pixel coordinates, the `(x, y)` pair of arrays
produced by `skycoord_corners.to_pixel(wcs)`; entries 0..3 are used. -/
structure Corners where
  x : ℕ → ℝ
  y : ℕ → ℝ

/-- Embedding of the local `dist(i, j)` helper of `measure_tile_lengths`:
`sqrt((x[i] - x[j])² + (y[i] - y[j])²)`. -/
noncomputable def corner_dist (c : Corners) (i j : ℕ) : ℝ :=
  Real.sqrt ((c.x i - c.x j) ^ 2 + (c.y i - c.y j) ^ 2)

/-- Embedding of `measure_tile_lengths`: the edge lengths
`0→1, 1→2, 2→3, 3→0` (as `dist((i+1) % 4, i)`) and the diagonal lengths
`0→2, 1→3`. -/
noncomputable def measure_tile_lengths (c : Corners) : List ℝ × List ℝ :=
  ([corner_dist c 1 0, corner_dist c 2 1, corner_dist c 3 2,
    corner_dist c 0 3],
   [corner_dist c 0 2, corner_dist c 1 3])

/-- Python's built-in `max` on a nonempty sequence (left fold). -/
noncomputable def listMax : List ℝ → ℝ
  | [] => 0
  | v :: vs => vs.foldl max v

/-- Python's built-in `min` on a nonempty sequence (left fold). -/
noncomputable def listMin : List ℝ → ℝ
  | [] => 0
  | v :: vs => vs.foldl min v

/-- Embedding of `is_tile_distorted`: edge threshold 300 (exclusive), or
diagonal threshold 150 (exclusive) together with a diagonal ratio below
0.7 (exclusive). -/
noncomputable def is_tile_distorted (c : Corners) : Prop :=
  listMax (measure_tile_lengths c).1 > 300 ∨
  (listMax (measure_tile_lengths c).2 > 150 ∧
    listMin (measure_tile_lengths c).2 / listMax (measure_tile_lengths c).2
      < 0.7)

/-- Corners of an axis-aligned square of edge `d` with vertices in cyclic
order `(0,0), (d,0), (d,d), (0,d)`. -/
noncomputable def squareCorners (d : ℝ) : Corners :=
  ⟨fun i => if i = 1 ∨ i = 2 then d else 0,
   fun i => if i = 2 ∨ i = 3 then d else 0⟩

/-- Kite-shaped corners `(0,100), (70,0), (0,-100), (-70,0)`: diagonals
200 and 140, so the diagonal ratio is exactly 0.7. -/
noncomputable def kiteCorners : Corners :=
  ⟨fun i => if i = 1 then 70 else if i = 3 then -70 else 0,
   fun i => if i = 0 then 100 else if i = 2 then -100 else 0⟩

theorem squareCorners_lengths (d : ℝ) (hd : 0 ≤ d) :
    (measure_tile_lengths (squareCorners d)).1 = [d, d, d, d] ∧
    (measure_tile_lengths (squareCorners d)).2 =
      [Real.sqrt (d ^ 2 + d ^ 2), Real.sqrt (d ^ 2 + d ^ 2)] := by
  have hsq : Real.sqrt (d ^ 2) = d := Real.sqrt_sq hd
  unfold measure_tile_lengths corner_dist squareCorners
  norm_num
  exact hsq

theorem squareCorners_not_distorted (d : ℝ) (h0 : 0 < d) (h300 : d ≤ 300) :
    ¬ is_tile_distorted (squareCorners d) := by
  obtain ⟨he, hdg⟩ := squareCorners_lengths d (le_of_lt h0)
  unfold is_tile_distorted
  rw [he, hdg]
  simp only [listMax, listMin, List.foldl, max_self, min_self]
  rintro (h | ⟨h1, h2⟩)
  · linarith
  · have hs : (0 : ℝ) < Real.sqrt (d ^ 2 + d ^ 2) :=
      Real.sqrt_pos.mpr (by positivity)
    rw [div_self (ne_of_gt hs)] at h2
    norm_num at h2

theorem squareCorners_301_distorted : is_tile_distorted (squareCorners 301) := by
  obtain ⟨he, _⟩ := squareCorners_lengths 301 (by norm_num)
  unfold is_tile_distorted
  rw [he]
  left
  simp only [listMax, List.foldl, max_self]
  norm_num

theorem kiteCorners_lengths :
    (measure_tile_lengths kiteCorners).1 =
      [Real.sqrt 14900, Real.sqrt 14900, Real.sqrt 14900, Real.sqrt 14900] ∧
    (measure_tile_lengths kiteCorners).2 = [200, 140] := by
  have h200 : Real.sqrt 40000 = 200 := by
    rw [show (40000 : ℝ) = 200 ^ 2 by norm_num,
      Real.sqrt_sq (by norm_num : (0 : ℝ) ≤ 200)]
  have h140 : Real.sqrt 19600 = 140 := by
    rw [show (19600 : ℝ) = 140 ^ 2 by norm_num,
      Real.sqrt_sq (by norm_num : (0 : ℝ) ≤ 140)]
  unfold measure_tile_lengths corner_dist kiteCorners
  norm_num
  constructor
  · exact h200
  · exact h140

theorem kiteCorners_not_distorted : ¬ is_tile_distorted kiteCorners := by
  obtain ⟨he, hdg⟩ := kiteCorners_lengths
  unfold is_tile_distorted
  rw [he, hdg]
  simp only [listMax, listMin, List.foldl, max_self]
  rintro (h | ⟨h1, h2⟩)
  · have h300 : (300 : ℝ) = Real.sqrt 90000 := by
      rw [show (90000 : ℝ) = 300 ^ 2 by norm_num,
        Real.sqrt_sq (by norm_num : (0 : ℝ) ≤ 300)]
    rw [h300] at h
    exact absurd (Real.sqrt_le_sqrt (by norm_num : (14900 : ℝ) ≤ 90000))
      (not_le.mpr h)
  · have hmax : max (200 : ℝ) 140 = 200 := by norm_num
    have hmin : min (200 : ℝ) 140 = 140 := by norm_num
    rw [hmax, hmin] at h2
    norm_num at h2

/-- C5: the distortion predicate is exactly "max edge > 300, or (max
diagonal > 150 and diagonal ratio < 0.7)", with all three thresholds
exclusive: a square of edge 300 is not distorted, a square of edge 301 is,
and a quadrilateral with diagonal ratio exactly 0.7 (and max diagonal
above 150, edges within bounds) is not distorted. -/
theorem is_tile_distorted_characterization :
    (∀ c : Corners, is_tile_distorted c ↔
      (listMax (measure_tile_lengths c).1 > 300 ∨
        (listMax (measure_tile_lengths c).2 > 150 ∧
          listMin (measure_tile_lengths c).2 /
            listMax (measure_tile_lengths c).2 < 0.7))) ∧
    ¬ is_tile_distorted (squareCorners 300) ∧
    is_tile_distorted (squareCorners 301) ∧
    ¬ is_tile_distorted kiteCorners :=
  ⟨fun _ => Iff.rfl,
   squareCorners_not_distorted 300 (by norm_num) (by norm_num),
   squareCorners_301_distorted, kiteCorners_not_distorted⟩

/-- One element of the Python list built by the precise branch of
`make_tile_list`: either a bare tile (appended when its corners pass the
distortion test) or the list of four children (appended when they fail). -/
inductive DrawEntry where
  | single (t : HipsTile)
  | many (l : List HipsTile)

/-- Embedding of the flattening comprehension
`[tile for children in tiles for tile in children]`: iterating a bare
`HipsTile` raises `TypeError` (the class defines neither `__iter__` nor
`__getitem__`), which aborts the whole comprehension. -/
def py_flatten : List DrawEntry → Except Unit (List HipsTile)
  | [] => .ok []
  | .single _ :: _ => .error ()
  | .many l :: rest =>
    match py_flatten rest with
    | .error e => .error e
    | .ok tl => .ok (l ++ tl)

open Classical in
/-- Embedding of `HipsPainter.make_tile_list`.  The reprojected corner
coordinates of each tile — computed in the source through the external WCS
object — are supplied by the collaborator function `corners`. -/
noncomputable def make_tile_list (corners : HipsTile → Corners)
    (precise : Bool) (parent_tiles : List HipsTile) :
    Except Unit (List HipsTile) :=
  if precise = true then
    py_flatten (parent_tiles.map fun tile =>
      if is_tile_distorted (corners tile) then .many tile.children
      else .single tile)
  else .ok parent_tiles

/-- A parent tile with a 2×2 pixel array. -/
def parentTile : HipsTile :=
  ⟨{ order := 3, ipix := 0, file_format := .fits }, ⟨2, 2, fun _ _ => 5⟩⟩

/-- C6: in precise mode, a fetched tile whose reprojected corners are NOT
distorted (here: a unit square) is appended to the intermediate list as a
bare tile, and the flattening comprehension then raises `TypeError`
instead of keeping the tile in the draw list. -/
theorem make_tile_list_raises_on_undistorted_tile :
    make_tile_list (fun _ => squareCorners 1) true [parentTile] =
      .error () := by
  have hnd : ¬ is_tile_distorted (squareCorners 1) :=
    squareCorners_not_distorted 1 (by norm_num) (by norm_num)
  unfold make_tile_list
  rw [if_pos rfl]
  rw [List.map_cons, List.map_nil, if_neg hnd]
  rfl

/-! ## Empty draw list (`HipsPainter.draw_all_tiles` / `HipsPainter.image`) -/

/-- Float image accumulator: a numpy-style shape plus a value on
multi-indices. -/
structure FloatImg where
  shape : List ℕ
  v : List ℕ → ℝ

/-- Embedding of `HipsPainter._make_empty_sky_image`:
`np.zeros(compute_image_shape(width, height, fmt), np.float32)`. -/
def make_empty_sky_image (width height : ℕ) (fmt : FileFormat) : FloatImg :=
  ⟨compute_image_shape width height fmt, fun _ => 0⟩

/-- Pointwise accumulation `image += tile_image`. -/
def img_add (a b : FloatImg) : FloatImg :=
  ⟨a.shape, fun idx => a.v idx + b.v idx⟩

/-- Embedding of `HipsPainter.draw_all_tiles`: warp every tile of the draw
list through the external projective transform (`warp`) and sum into the
zero image. -/
def draw_all_tiles (warp : HipsTile → FloatImg) (draw_tiles : List HipsTile)
    (width height : ℕ) (fmt : FileFormat) : FloatImg :=
  (draw_tiles.map warp).foldl img_add (make_empty_sky_image width height fmt)

/-- Embedding of the `HipsPainter.image` property:
`self.float_image.astype(self.tiles[0].data.dtype)`.  `tiles[0]` raises
`IndexError` on an empty tile list; the dtype cast is the identity in the
model. -/
def painter_image (tiles : List HipsTile) (float_image : FloatImg) :
    Option FloatImg :=
  match tiles with
  | [] => none
  | _ :: _ => some float_image

/-- C8 counterexample: for an empty draw list over a 3×2 FITS geometry the
accumulator is the all-zero buffer of the output shape, but the `image`
accessor raises (`none`) instead of returning it — evaluated here at one
concrete geometry and one concrete pixel. -/
theorem empty_draw_list_image_raises :
    painter_image []
      (draw_all_tiles (fun _ => ⟨[2, 3], fun _ => 0⟩) [] 3 2 .fits) = none ∧
    (draw_all_tiles (fun _ => ⟨[2, 3], fun _ => 0⟩) [] 3 2 .fits).shape
      = [2, 3] ∧
    (draw_all_tiles (fun _ => ⟨[2, 3], fun _ => 0⟩) [] 3 2 .fits).v [0, 1]
      = 0 :=
  ⟨rfl, rfl, rfl⟩

/-- C8 (amended): with an empty draw list, the drawing loop itself
completes and leaves the all-zero float buffer of the output shape, but
the render then raises: the `image` property indexes the empty tile list
for the output dtype, so no all-zero image is returned. -/
theorem empty_draw_list_zero_buffer_but_image_raises
    (warp : HipsTile → FloatImg) (width height : ℕ) (fmt : FileFormat) :
    (draw_all_tiles warp [] width height fmt).shape =
      compute_image_shape width height fmt ∧
    (∀ idx, (draw_all_tiles warp [] width height fmt).v idx = 0) ∧
    painter_image [] (draw_all_tiles warp [] width height fmt) = none :=
  ⟨rfl, fun _ => rfl, rfl⟩

/-- C10: for a parent tile whose pixel array is `2w × 2w`, each of the
four children carries a `w × w` pixel array but records the constructor
default width 512 in its metadata; the recorded width matches the actual
pixel width exactly when the parent array is 1024 wide. -/
theorem children_width_mismatch (t : HipsTile) (w : ℕ)
    (hh : t.data.h = 2 * w) (hw : t.data.w = 2 * w) :
    (t.children.length = 4 ∧
      ∀ c ∈ t.children, c.data.h = w ∧ c.data.w = w ∧ c.meta.width = 512) ∧
    ((∀ c ∈ t.children, c.meta.width = c.data.w) ↔ 2 * w = 1024) := by
  have hw2 : t.data.h / 2 = w := by omega
  have hrange : List.range 4 = [0, 1, 2, 3] := rfl
  unfold HipsTile.children
  simp only [hw2, hrange, List.zipWith, List.length_cons, List.length_nil,
    List.mem_cons, List.not_mem_nil, or_false, forall_eq_or_imp, forall_eq,
    sliceStop, hh, hw]
  refine ⟨⟨trivial, ⟨by omega, by omega, trivial⟩, ⟨by omega, by omega, trivial⟩,
    ⟨by omega, by omega, trivial⟩, by omega, by omega, trivial⟩, ?_⟩
  constructor
  · intro h
    omega
  · intro h
    omega

/-- Witness for C10 at a concrete 2×2 parent tile. -/
theorem children_width_mismatch_witness :
    (parentTile.data.h = 2 * 1 ∧ parentTile.data.w = 2 * 1) ∧
    ((parentTile.children.length = 4 ∧
      ∀ c ∈ parentTile.children,
        c.data.h = 1 ∧ c.data.w = 1 ∧ c.meta.width = 512) ∧
    ((∀ c ∈ parentTile.children, c.meta.width = c.data.w) ↔ 2 * 1 = 1024)) :=
  ⟨⟨rfl, rfl⟩, children_width_mismatch parentTile 1 rfl rfl⟩

/-! ## Resolution matching (`hips/utils/healpix.py`), floats as reals -/

/-- Truncation toward zero: the effect of `np.array(level, dtype=int)` on
a finite float. -/
noncomputable def truncZ (x : ℝ) : ℤ := if 0 ≤ x then ⌊x⌋ else ⌈x⌉

/-- The three rounding modes of `pixel_resolution_to_nside`; an invalid
mode string raises and is unrepresentable here. -/
inductive RoundMode where
  | up
  | nearest
  | down

/-- The integer level produced from the float level by each mode:
`int(level) + 1`, `int(level + 0.5)`, `int(level)`. -/
noncomputable def roundLevel : RoundMode → ℝ → ℤ
  | .up, level => truncZ level + 1
  | .nearest, level => truncZ (level + 0.5)
  | .down, level => truncZ level

/-- The exact (pre-rounding) nside computed inside
`pixel_resolution_to_nside` from a resolution in degrees:
`sqrt((4π / radians²) / 12)`. -/
noncomputable def nside_exact (resolution_deg : ℝ) : ℝ :=
  Real.sqrt ((4 * Real.pi /
    ((resolution_deg * (Real.pi / 180)) * (resolution_deg * (Real.pi / 180))))
    / 12)

/-- Embedding of `pixel_resolution_to_nside`: degrees to radians, exact
nside, log2 level, per-mode rounding, clip below at level 0, and
`level_to_nside` (`2 ** level`). -/
noncomputable def pixel_resolution_to_nside (resolution_deg : ℝ)
    (mode : RoundMode) : ℝ :=
  let level := Real.logb 2 (nside_exact resolution_deg)
  (2 : ℝ) ^ max 0 (roundLevel mode level)

/-- Embedding of `nside_to_level`: `round(log2(nside))`. -/
noncomputable def nside_to_level (nside : ℝ) : ℤ := round (Real.logb 2 nside)

/-- Embedding of `hips_order_for_pixel_resolution`: resolution times tile
width, `pixel_resolution_to_nside` with rounding mode 'up', then
`nside_to_level`. -/
noncomputable def hips_order_for_pixel_resolution (tile_width : ℕ)
    (resolution : ℝ) : ℤ :=
  nside_to_level (pixel_resolution_to_nside (resolution * tile_width) .up)

/-- Embedding of `HipsPainter.draw_hips_order`:
`np.min([desired_order, hips_survey.hips_order])`. -/
noncomputable def draw_hips_order (tile_width : ℕ) (survey_order : ℤ)
    (resolution : ℝ) : ℤ :=
  min (hips_order_for_pixel_resolution tile_width resolution) survey_order

/-- The spec's tile angular resolution formula, for a tile width `2^s`:
`r(o) = sqrt(4π·(180/π)² / (12·4^(o + log2 tileWidth)))` in degrees.  This
definition follows the spec's words; the claims compare it with the
code-derived functions above. -/
noncomputable def tile_resolution_deg (s : ℕ) (o : ℤ) : ℝ :=
  Real.sqrt (4 * Real.pi * (180 / Real.pi) ^ 2 / (12 * (4 : ℝ) ^ (o + s)))

theorem nside_to_level_pow (z : ℤ) : nside_to_level ((2 : ℝ) ^ z) = z := by
  unfold nside_to_level
  rw [← Real.rpow_intCast 2 z,
    Real.logb_rpow (by norm_num) (by norm_num), round_intCast]

theorem hips_order_eq (tile_width : ℕ) (resolution : ℝ) :
    hips_order_for_pixel_resolution tile_width resolution =
      max 0 (truncZ (Real.logb 2
        (nside_exact (resolution * tile_width))) + 1) := by
  unfold hips_order_for_pixel_resolution pixel_resolution_to_nside
  rw [nside_to_level_pow]
  rfl

theorem pow_two_zpow (o : ℤ) : ((2 : ℝ) ^ o) ^ (2 : ℕ) = (4 : ℝ) ^ o := by
  rw [← zpow_natCast ((2 : ℝ) ^ o) 2, ← zpow_mul,
    show (4 : ℝ) = (2 : ℝ) ^ (2 : ℤ) by norm_num, ← zpow_mul]
  ring_nf

theorem pow_two_npow (s : ℕ) : ((2 : ℝ) ^ s) ^ (2 : ℕ) = (4 : ℝ) ^ (s : ℤ) := by
  rw [zpow_natCast, show (4 : ℝ) = 2 ^ (2 : ℕ) by norm_num, ← pow_mul, ← pow_mul,
    Nat.mul_comm]

/-- The spec's tile resolution at order `o` for tile width `2^s` equals
`ρ · nsideExact(ρ·2^s) / 2^o` for any pixel scale `ρ > 0`. -/
theorem tile_resolution_eq (s : ℕ) (o : ℤ) (ρ : ℝ) (hρ : 0 < ρ) :
    tile_resolution_deg s o =
      ρ * nside_exact (ρ * 2 ^ s) / (2 : ℝ) ^ o := by
  have hπ : (0 : ℝ) < Real.pi := Real.pi_pos
  have hπne : Real.pi ≠ 0 := ne_of_gt hπ
  have hρne : ρ ≠ 0 := ne_of_gt hρ
  have h2o : (0 : ℝ) < (2 : ℝ) ^ o := zpow_pos (by norm_num) o
  have h4os : (4 : ℝ) ^ (o + (s : ℤ)) = 4 ^ o * 4 ^ (s : ℤ) :=
    zpow_add₀ (by norm_num) o s
  have hB : (0 : ℝ) ≤ (4 * Real.pi /
      ((ρ * 2 ^ s * (Real.pi / 180)) * (ρ * 2 ^ s * (Real.pi / 180)))) / 12 := by
    positivity
  have hA : 4 * Real.pi * (180 / Real.pi) ^ 2 / (12 * (4 : ℝ) ^ (o + (s : ℤ))) =
      ρ ^ 2 * ((4 * Real.pi /
        ((ρ * 2 ^ s * (Real.pi / 180)) * (ρ * 2 ^ s * (Real.pi / 180)))) / 12) /
        (4 : ℝ) ^ o := by
    rw [h4os, ← pow_two_npow s]
    have h4one : (4 : ℝ) ^ o ≠ 0 := ne_of_gt (zpow_pos (by norm_num) o)
    have h2sne : (2 : ℝ) ^ s ≠ 0 := by positivity
    field_simp
    ring
  unfold tile_resolution_deg nside_exact
  rw [hA, Real.sqrt_div' _ (by positivity), Real.sqrt_mul (by positivity),
    Real.sqrt_sq (le_of_lt hρ),
    show (4 : ℝ) ^ o = ((2 : ℝ) ^ o) ^ (2 : ℕ) from (pow_two_zpow o).symm,
    Real.sqrt_sq (le_of_lt h2o)]

/-- The spec's resolution requirement `r(o) ≤ ρ` holds exactly when the
code's exact nside is at most `2^o`. -/
theorem tile_resolution_le_iff (s : ℕ) (o : ℤ) (ρ : ℝ) (hρ : 0 < ρ) :
    tile_resolution_deg s o ≤ ρ ↔
      nside_exact (ρ * 2 ^ s) ≤ (2 : ℝ) ^ o := by
  have h2o : (0 : ℝ) < (2 : ℝ) ^ o := zpow_pos (by norm_num) o
  rw [tile_resolution_eq s o ρ hρ, div_le_iff₀ h2o,
    show ρ * nside_exact (ρ * 2 ^ s) ≤ ρ * 2 ^ o ↔
      nside_exact (ρ * 2 ^ s) ≤ 2 ^ o from mul_le_mul_left hρ]

theorem two_pow_cast (s : ℕ) : (((2 : ℕ) ^ s : ℕ) : ℝ) = (2 : ℝ) ^ s := by
  push_cast
  ring

/-- C3 (amended): for a pixel scale `ρ > 0` whose exact nside lies
strictly between two consecutive powers of two `2^k < nside < 2^(k+1)`
(`k ≥ 0`; for rational `ρ` the nside is never an exact power of two), the
function returns `k + 1`, which is the smallest integer order `o` with
`r(o) ≤ ρ` — with no clamping to the range 3..29 in either direction. -/
theorem hips_order_for_pixel_resolution_amended (s k : ℕ) (ρ : ℝ)
    (hρ : 0 < ρ)
    (hlo : (2 : ℝ) ^ (k : ℤ) < nside_exact (ρ * 2 ^ s))
    (hhi : nside_exact (ρ * 2 ^ s) < (2 : ℝ) ^ ((k : ℤ) + 1)) :
    hips_order_for_pixel_resolution (2 ^ s) ρ = (k : ℤ) + 1 ∧
    tile_resolution_deg s ((k : ℤ) + 1) ≤ ρ ∧
    ∀ o : ℤ, tile_resolution_deg s o ≤ ρ → (k : ℤ) + 1 ≤ o := by
  have hNpos : 0 < nside_exact (ρ * 2 ^ s) :=
    lt_trans (zpow_pos (by norm_num) _) hlo
  have hk_lt_L : (k : ℝ) < Real.logb 2 (nside_exact (ρ * 2 ^ s)) := by
    rw [Real.lt_logb_iff_rpow_lt (by norm_num) hNpos, Real.rpow_natCast]
    rw [← zpow_natCast (2 : ℝ) k]
    exact hlo
  have hL_lt : Real.logb 2 (nside_exact (ρ * 2 ^ s)) < (k : ℝ) + 1 := by
    rw [Real.logb_lt_iff_lt_rpow (by norm_num) hNpos,
      show ((k : ℝ) + 1) = (((k : ℤ) + 1 : ℤ) : ℝ) by push_cast; ring,
      Real.rpow_intCast]
    exact hhi
  have hL0 : 0 ≤ Real.logb 2 (nside_exact (ρ * 2 ^ s)) :=
    le_trans (by positivity) (le_of_lt hk_lt_L)
  have htr : truncZ (Real.logb 2 (nside_exact (ρ * 2 ^ s))) = (k : ℤ) := by
    unfold truncZ
    rw [if_pos hL0, Int.floor_eq_iff]
    constructor
    · push_cast
      exact le_of_lt hk_lt_L
    · push_cast
      exact hL_lt
  refine ⟨?_, ?_, ?_⟩
  · rw [hips_order_eq, two_pow_cast, htr]
    omega
  · exact (tile_resolution_le_iff s ((k : ℤ) + 1) ρ hρ).mpr (le_of_lt hhi)
  · intro o ho
    have hNo : nside_exact (ρ * 2 ^ s) ≤ (2 : ℝ) ^ o :=
      (tile_resolution_le_iff s o ρ hρ).mp ho
    have : (2 : ℝ) ^ (k : ℤ) < (2 : ℝ) ^ o := lt_of_lt_of_le hlo hNo
    have := (zpow_lt_zpow_iff_right₀ (by norm_num : (1 : ℝ) < 2)).mp this
    omega

/-- C3 counterexample: at tile width 512 and pixel scale 180 degrees the
code returns order 0, while the claimed "smallest order in the range 3 to
29 with r(o) ≤ pixelScale" would be 3 (order 3 already satisfies the
resolution requirement), so the result lies below the claimed range. -/
theorem hips_order_below_claimed_range :
    hips_order_for_pixel_resolution 512 180 = 0 ∧
    tile_resolution_deg 9 3 ≤ 180 ∧ ¬ (3 : ℤ) ≤ 0 := by
  have hπ : (0 : ℝ) < Real.pi := Real.pi_pos
  have hπne : Real.pi ≠ 0 := ne_of_gt hπ
  have hπlo : (3.14 : ℝ) < Real.pi := Real.pi_gt_d2
  have hπhi : Real.pi < 3.15 := Real.pi_lt_d2
  have harg : nside_exact (180 * ((512 : ℕ) : ℝ)) =
      Real.sqrt (1 / (786432 * Real.pi)) := by
    unfold nside_exact
    congr 1
    push_cast
    field_simp
    ring
  have hN_le : Real.sqrt (1 / (786432 * Real.pi)) ≤ 1 / 1024 := by
    rw [Real.sqrt_le_left (by norm_num : (0 : ℝ) ≤ 1 / 1024),
      div_le_iff₀ (by positivity)]
    nlinarith
  have hN_gt : (1 : ℝ) / 2048 < Real.sqrt (1 / (786432 * Real.pi)) := by
    rw [Real.lt_sqrt (by norm_num : (0 : ℝ) ≤ 1 / 2048)]
    rw [div_pow, one_pow, div_lt_div_iff₀ (by norm_num) (by positivity)]
    nlinarith
  have hNpos : (0 : ℝ) < Real.sqrt (1 / (786432 * Real.pi)) :=
    lt_trans (by norm_num) hN_gt
  have hL_le : Real.logb 2 (Real.sqrt (1 / (786432 * Real.pi))) ≤ -10 := by
    rw [Real.logb_le_iff_le_rpow (by norm_num) hNpos,
      show ((-10 : ℝ)) = (((-10 : ℤ)) : ℝ) by norm_num, Real.rpow_intCast,
      show (2 : ℝ) ^ (-10 : ℤ) = 1 / 1024 by norm_num]
    exact hN_le
  have hL_gt : (-11 : ℝ) < Real.logb 2 (Real.sqrt (1 / (786432 * Real.pi))) := by
    rw [Real.lt_logb_iff_rpow_lt (by norm_num) hNpos,
      show ((-11 : ℝ)) = (((-11 : ℤ)) : ℝ) by norm_num, Real.rpow_intCast,
      show (2 : ℝ) ^ (-11 : ℤ) = 1 / 2048 by norm_num]
    exact hN_gt
  have htr : truncZ (Real.logb 2 (Real.sqrt (1 / (786432 * Real.pi)))) = -10 := by
    unfold truncZ
    rw [if_neg (by intro h; linarith), Int.ceil_eq_iff]
    constructor
    · push_cast
      linarith
    · push_cast
      exact hL_le
  refine ⟨?_, ?_, by decide⟩
  · rw [hips_order_eq, harg, htr]
    decide
  · unfold tile_resolution_deg
    rw [Real.sqrt_le_left (by norm_num : (0 : ℝ) ≤ 180)]
    have h12 : ((3 : ℤ) + ((9 : ℕ) : ℤ)) = 12 := by norm_num
    rw [h12, show (4 : ℝ) ^ (12 : ℤ) = 16777216 by norm_num]
    have h1 : 4 * Real.pi * (180 / Real.pi) ^ 2 = 129600 / Real.pi := by
      field_simp
      ring
    rw [h1, div_div, div_le_iff₀ (by positivity)]
    nlinarith

/-- Witness for the amended C3 at tile width `2^0 = 1`, pixel scale 1
degree: the exact nside lies in `(2^5, 2^6)` and the returned order is 6. -/
theorem hips_order_for_pixel_resolution_amended_witness :
    ((0 : ℝ) < 1 ∧
      (2 : ℝ) ^ ((5 : ℕ) : ℤ) < nside_exact (1 * 2 ^ (0 : ℕ)) ∧
      nside_exact (1 * 2 ^ (0 : ℕ)) < (2 : ℝ) ^ (((5 : ℕ) : ℤ) + 1)) ∧
    (hips_order_for_pixel_resolution (2 ^ 0) 1 = ((5 : ℕ) : ℤ) + 1 ∧
      tile_resolution_deg 0 (((5 : ℕ) : ℤ) + 1) ≤ 1 ∧
      ∀ o : ℤ, tile_resolution_deg 0 o ≤ 1 → ((5 : ℕ) : ℤ) + 1 ≤ o) := by
  have hπ : (0 : ℝ) < Real.pi := Real.pi_pos
  have hπne : Real.pi ≠ 0 := ne_of_gt hπ
  have hπlo : (3.14 : ℝ) < Real.pi := Real.pi_gt_d2
  have hπhi : Real.pi < 3.15 := Real.pi_lt_d2
  have harg : nside_exact (1 * 2 ^ (0 : ℕ)) =
      Real.sqrt (10800 / Real.pi) := by
    unfold nside_exact
    congr 1
    norm_num
    field_simp
    ring
  have hlo : (2 : ℝ) ^ ((5 : ℕ) : ℤ) < nside_exact (1 * 2 ^ (0 : ℕ)) := by
    rw [harg, show (2 : ℝ) ^ ((5 : ℕ) : ℤ) = 32 by norm_num,
      Real.lt_sqrt (by norm_num : (0 : ℝ) ≤ 32)]
    rw [lt_div_iff₀ hπ]
    nlinarith
  have hhi : nside_exact (1 * 2 ^ (0 : ℕ)) < (2 : ℝ) ^ (((5 : ℕ) : ℤ) + 1) := by
    rw [harg, show (2 : ℝ) ^ (((5 : ℕ) : ℤ) + 1) = 64 by norm_num,
      Real.sqrt_lt' (by norm_num : (0 : ℝ) < 64)]
    rw [div_lt_iff₀ hπ]
    nlinarith
  exact ⟨⟨by norm_num, hlo, hhi⟩,
    hips_order_for_pixel_resolution_amended 0 5 1 (by norm_num) hlo hhi⟩

theorem truncZ_mono {x y : ℝ} (h : x ≤ y) : truncZ x ≤ truncZ y := by
  unfold truncZ
  split_ifs with hx hy hy
  · exact Int.floor_le_floor h
  · exact absurd (le_trans hx h) hy
  · calc ⌈x⌉ ≤ 0 := Int.ceil_le.mpr (by push_cast; exact le_of_lt (not_le.mp hx))
    _ ≤ ⌊y⌋ := Int.floor_nonneg.mpr hy
  · exact Int.ceil_le_ceil h

/-- C4: for a fixed tile width and native survey order, the order chosen
for drawing is monotonic non-increasing in the required pixel scale and
never exceeds the survey's native order. -/
theorem draw_hips_order_monotone (tw : ℕ) (survey_order : ℤ) (p1 p2 : ℝ)
    (htw : 0 < tw) (h1 : 0 < p1) (h12 : p1 ≤ p2) :
    draw_hips_order tw survey_order p2 ≤ draw_hips_order tw survey_order p1 ∧
    draw_hips_order tw survey_order p2 ≤ survey_order := by
  refine ⟨?_, min_le_right _ _⟩
  unfold draw_hips_order
  refine min_le_min ?_ le_rfl
  rw [hips_order_eq, hips_order_eq]
  have htwR : (0 : ℝ) < (tw : ℝ) := by exact_mod_cast htw
  have h2 : (0 : ℝ) < p2 := lt_of_lt_of_le h1 h12
  have hN2pos : 0 < nside_exact (p2 * tw) := by
    unfold nside_exact
    apply Real.sqrt_pos.mpr
    positivity
  have hale : p1 * tw * (Real.pi / 180) ≤ p2 * tw * (Real.pi / 180) := by
    have := Real.pi_pos
    apply mul_le_mul_of_nonneg_right _ (by positivity)
    exact mul_le_mul_of_nonneg_right h12 (le_of_lt htwR)
  have ha1pos : (0 : ℝ) < p1 * tw * (Real.pi / 180) := by
    have := Real.pi_pos
    positivity
  have hNle : nside_exact (p2 * tw) ≤ nside_exact (p1 * tw) := by
    unfold nside_exact
    apply Real.sqrt_le_sqrt
    apply (div_le_div_iff_of_pos_right (by norm_num : (0 : ℝ) < 12)).mpr
    apply div_le_div_of_nonneg_left (by positivity) (by positivity)
    exact mul_le_mul hale hale (le_of_lt ha1pos) (by positivity)
  have hL : Real.logb 2 (nside_exact (p2 * tw)) ≤
      Real.logb 2 (nside_exact (p1 * tw)) :=
    Real.logb_le_logb_of_le (by norm_num) hN2pos hNle
  have := truncZ_mono hL
  omega

/-- Witness for C4 at tile width 1, native order 10, pixel scales 1 ≤ 2. -/
theorem draw_hips_order_monotone_witness :
    (0 < 1 ∧ (0 : ℝ) < 1 ∧ (1 : ℝ) ≤ 2) ∧
    (draw_hips_order 1 10 2 ≤ draw_hips_order 1 10 1 ∧
      draw_hips_order 1 10 2 ≤ 10) :=
  ⟨⟨by norm_num, by norm_num, by norm_num⟩,
   draw_hips_order_monotone 1 10 1 2 (by norm_num) (by norm_num) (by norm_num)⟩
